import Mathlib

/-!
Verification of the libbitcoin connection-lifecycle and protocol-session
layer against its specification.

The repository sources available are:
  - include/bitcoin/bitcoin/message/filter_load.hpp (declarations only)
  - include/bitcoin/bitcoin/network/connector.hpp (declarations only)
  - include/bitcoin/bitcoin/network/protocol_base.hpp (templates, declarations)
  - src/network/protocol_base.cpp (implementation)
  - the acceptor header (declarations only)

Where only declarations are present, the behaviour is modelled from the
specification text, as noted on each definition.  Machine integers are
modelled as `Nat` with explicit bounds; bytes are `Nat` values below 256.
-/

namespace LibbitcoinSpec

/-! ## Byte-level primitives of the wire codec

Modelled from the spec: the representative wire format is
`[varint filter length][filter bytes][uint32 hash_functions, little-endian]
[uint32 tweak, little-endian][uint8 flags]`.  The reader/writer
implementations are not under src/, only the filter_load declarations. -/

/-- Modelled from the spec: little-endian serialization of an unsigned
integer into `w` bytes (the writer write_2/4/8_bytes_little_endian). -/
def writeLE : Nat → Nat → List Nat
  | 0, _ => []
  | w + 1, n => n % 256 :: writeLE w (n / 256)

/-- Modelled from the spec: little-endian deserialization of `w` bytes
(the reader read_2/4/8_bytes_little_endian); fails on short input. -/
def readLE : Nat → List Nat → Option (Nat × List Nat)
  | 0, bs => some (0, bs)
  | _ + 1, [] => none
  | w + 1, b :: bs =>
    match readLE w bs with
    | some (n, rest) => some (b + 256 * n, rest)
    | none => none

/-- Modelled from the spec: Bitcoin variable-length integer encoding
(one byte below 0xFD, otherwise a marker byte and 2, 4 or 8
little-endian bytes). -/
def writeVarint (n : Nat) : List Nat :=
  if n < 0xFD then [n]
  else if n ≤ 0xFFFF then 0xFD :: writeLE 2 n
  else if n ≤ 0xFFFFFFFF then 0xFE :: writeLE 4 n
  else 0xFF :: writeLE 8 n

/-- Modelled from the spec: Bitcoin variable-length integer decoding
(the reader read_variable_uint_little_endian); fails on short input. -/
def readVarint : List Nat → Option (Nat × List Nat)
  | [] => none
  | b :: bs =>
    if b = 0xFD then readLE 2 bs
    else if b = 0xFE then readLE 4 bs
    else if b = 0xFF then readLE 8 bs
    else some (b, bs)

/-- Modelled from the spec: read exactly `n` raw bytes (the reader
read_data); fails when fewer than `n` bytes remain. -/
def readBytes (n : Nat) (bs : List Nat) : Option (List Nat × List Nat) :=
  if n ≤ bs.length then some (bs.take n, bs.drop n) else none

theorem writeLE_length (w n : Nat) : (writeLE w n).length = w := by
  induction w generalizing n with
  | zero => rfl
  | succ w ih => simpa [writeLE] using ih (n / 256)

theorem readLE_writeLE (w n : Nat) (rest : List Nat) (h : n < 256 ^ w) :
    readLE w (writeLE w n ++ rest) = some (n, rest) := by
  induction w generalizing n with
  | zero =>
    interval_cases n
    rfl
  | succ w ih =>
    have hlt : n / 256 < 256 ^ w := by
      have hp : 256 ^ (w + 1) = 256 ^ w * 256 := pow_succ 256 w
      omega
    have hrec := ih (n / 256) hlt
    simp only [writeLE, List.cons_append, readLE]
    rw [show ((writeLE w (n / 256)).append rest : List Nat) =
      writeLE w (n / 256) ++ rest from rfl]
    rw [hrec]
    simp [Nat.mod_add_div]

theorem writeVarint_length (n : Nat) :
    (writeVarint n).length =
      if n < 0xFD then 1 else if n ≤ 0xFFFF then 3
      else if n ≤ 0xFFFFFFFF then 5 else 9 := by
  unfold writeVarint
  split
  · simp
  · split
    · simp [writeLE_length]
    · split <;> simp [writeLE_length]

theorem readVarint_writeVarint (n : Nat) (rest : List Nat)
    (h : n < 2 ^ 64) :
    readVarint (writeVarint n ++ rest) = some (n, rest) := by
  unfold writeVarint
  split
  · rename_i h1
    simp only [List.cons_append, List.nil_append, readVarint]
    have e1 : ¬ n = 0xFD := by omega
    have e2 : ¬ n = 0xFE := by omega
    have e3 : ¬ n = 0xFF := by omega
    simp [e1, e2, e3]
  · split
    · rename_i h1 h2
      simp only [List.cons_append, readVarint, if_pos rfl]
      exact readLE_writeLE 2 n rest (by omega)
    · split
      · rename_i h1 h2 h3
        simp only [List.cons_append, readVarint]
        norm_num
        exact readLE_writeLE 4 n rest (by omega)
      · rename_i h1 h2 h3
        simp only [List.cons_append, readVarint]
        norm_num
        exact readLE_writeLE 8 n rest (by omega)

theorem readBytes_append (xs rest : List Nat) :
    readBytes xs.length (xs ++ rest) = some (xs, rest) := by
  unfold readBytes
  rw [if_pos (by simp)]
  simp

/-! ## The filter_load message (message/filter_load.hpp)

The header declares fields `filter` (byte string), `hash_functions`
(uint32), `tweak` (uint32), `flags` (uint8), together with
`from_data`, `to_data`, `is_valid`, `reset` and `serialized_size`.
The implementation is not under src/, so the codec behaviour is
modelled from the spec wire format; the spec data model adds a
validity flag set by decode. -/

/-- The filter_load message record: filter byte string, hash-function
count, tweak, flags, and the validity flag the spec data model
attaches ("validity flag set by decode"). -/
structure filter_load where
  filter : List Nat
  hash_functions : Nat
  tweak : Nat
  flags : Nat
  valid : Bool
  deriving DecidableEq, Repr

/-- Modelled from the spec: `reset()` restores the default/empty state,
which is not a valid message. -/
def filterLoadReset : filter_load :=
  { filter := [], hash_functions := 0, tweak := 0, flags := 0, valid := false }

/-- Modelled from the spec: parse one filter_load message from a byte
stream following the wire format `[varint filter length][filter bytes]
[uint32 hash_functions LE][uint32 tweak LE][uint8 flags]`, returning the
message and the unconsumed rest, or nothing when the bytes are short. -/
def filterLoadParse (bs : List Nat) : Option (filter_load × List Nat) :=
  match readVarint bs with
  | none => none
  | some (len, r1) =>
    match readBytes len r1 with
    | none => none
    | some (f, r2) =>
      match readLE 4 r2 with
      | none => none
      | some (hf, r3) =>
        match readLE 4 r3 with
        | none => none
        | some (tw, r4) =>
          match r4 with
          | [] => none
          | fl :: r5 =>
            some ({ filter := f, hash_functions := hf, tweak := tw,
                    flags := fl, valid := true }, r5)

/-- Modelled from the spec: `from_data` parses the bytes; on malformed
input it resets the instance and reports failure instead of raising. -/
def from_data (bs : List Nat) : Bool × filter_load :=
  match filterLoadParse bs with
  | some (v, _) => (true, v)
  | none => (false, filterLoadReset)

/-- Modelled from the spec: `to_data` serializes the message in the wire
format `[varint filter length][filter bytes][uint32 hash_functions LE]
[uint32 tweak LE][uint8 flags]`. -/
def to_data (v : filter_load) : List Nat :=
  writeVarint v.filter.length ++ v.filter ++
    writeLE 4 v.hash_functions ++ writeLE 4 v.tweak ++ [v.flags]

/-- Modelled from the spec: `is_valid` reports the validity flag. -/
def is_valid (v : filter_load) : Bool := v.valid

/-- Modelled from the spec: the encoded size of a variable-length
integer, computed arithmetically. -/
def variableUintSize (n : Nat) : Nat :=
  if n < 0xFD then 1 else if n ≤ 0xFFFF then 3
  else if n ≤ 0xFFFFFFFF then 5 else 9

/-- Modelled from the spec: `serialized_size` computes the exact encoded
length arithmetically, without serializing. -/
def serialized_size (v : filter_load) : Nat :=
  variableUintSize v.filter.length + v.filter.length + 4 + 4 + 1

/-- A structurally valid message value: in-range field values (bytes
below 256, 32-bit counts, a byte of flags, an encodable filter length)
carrying the validity flag. -/
def ValidFilterLoad (v : filter_load) : Prop :=
  (∀ b ∈ v.filter, b < 256) ∧ v.filter.length < 2 ^ 64 ∧
    v.hash_functions < 2 ^ 32 ∧ v.tweak < 2 ^ 32 ∧ v.flags < 256 ∧
    v.valid = true

instance (v : filter_load) : Decidable (ValidFilterLoad v) := by
  unfold ValidFilterLoad; infer_instance

theorem filterLoadParse_to_data (v : filter_load) (rest : List Nat)
    (hlen : v.filter.length < 2 ^ 64) (hhf : v.hash_functions < 2 ^ 32)
    (htw : v.tweak < 2 ^ 32) (hv : v.valid = true) :
    filterLoadParse (to_data v ++ rest) = some (v, rest) := by
  have h2 : v.hash_functions < 256 ^ 4 := by norm_num at hhf ⊢; omega
  have h3 : v.tweak < 256 ^ 4 := by norm_num at htw ⊢; omega
  simp only [to_data, filterLoadParse, List.append_assoc,
    readVarint_writeVarint _ _ hlen, readBytes_append,
    readLE_writeLE _ _ _ h2, readLE_writeLE _ _ _ h3,
    List.cons_append, List.nil_append]
  cases v
  simp_all

/-! ## Claims C4, C5, C6 : the codec contract -/

/-- Claim C4: for every valid filter_load message value v, decoding the
bytes produced by encoding v yields a value structurally equal to v:
`from_data (to_data v) = (true, v)`. -/
theorem claim_c4_roundtrip (v : filter_load) (h : ValidFilterLoad v) :
    from_data (to_data v) = (true, v) := by
  obtain ⟨-, hlen, hhf, htw, -, hv⟩ := h
  have hp := filterLoadParse_to_data v [] hlen hhf htw hv
  rw [List.append_nil] at hp
  simp [from_data, hp]

/-- Concrete witness for claim C4. -/
def sampleFilterLoad : filter_load :=
  { filter := [7, 0, 255], hash_functions := 2, tweak := 3, flags := 1,
    valid := true }

theorem claim_c4_roundtrip_witness :
    ValidFilterLoad sampleFilterLoad ∧
      from_data (to_data sampleFilterLoad) = (true, sampleFilterLoad) :=
  ⟨by decide, claim_c4_roundtrip sampleFilterLoad (by decide)⟩

/-- Claim C5: for every filter_load message value, `serialized_size`
equals the byte length of `to_data`, and it is computed arithmetically
(its definition never serializes). -/
theorem claim_c5_serialized_size (v : filter_load) :
    serialized_size v = (to_data v).length := by
  simp only [to_data, serialized_size, variableUintSize, List.length_append,
    writeVarint_length, writeLE_length, List.length_cons, List.length_nil]

/-- Claim C6: for every malformed input byte sequence (one the parser
cannot parse), `from_data` reports failure with the instance reset and
flagged invalid; `from_data` is a total function, so no input raises an
exception or aborts the caller. -/
theorem claim_c6_malformed_invalid (bs : List Nat)
    (h : filterLoadParse bs = none) :
    from_data bs = (false, filterLoadReset) ∧
      is_valid (from_data bs).2 = false := by
  simp [from_data, h, is_valid, filterLoadReset]

theorem claim_c6_malformed_invalid_witness :
    filterLoadParse [253] = none ∧
      (from_data [253] = (false, filterLoadReset) ∧
        is_valid (from_data [253]).2 = false) :=
  ⟨by decide, claim_c6_malformed_invalid [253] (by decide)⟩

/-! ## The Dispatcher ordered-execution engine

The dispatcher implementation is not under src/ (protocol_base.hpp only
calls `dispatch_.ordered` and `dispatch_.ordered_delegate`).  The
serialization algorithm is modelled from the spec: "an enqueue +
in-flight flag; if nothing is in flight when a task is enqueued, it is
taken off the queue and run immediately; on completion, the next queued
task (if any) is dequeued and run; if something is already in flight,
the new task only joins the queue."

Tasks are identified by numbers.  `running` holds the tasks currently
executing (the spec in-flight flag allows at most one); `started`
records the order in which tasks began executing, and `submitted` the
order in which they were submitted. -/

/-- State of one dispatcher instance. -/
structure DispState where
  queue : List Nat
  running : List Nat
  started : List Nat
  submitted : List Nat
  deriving DecidableEq, Repr

/-- A fresh dispatcher instance. -/
def dispInit : DispState := ⟨[], [], [], []⟩

/-- Modelled from the spec: `ordered(task)` — run at once when nothing
is in flight, otherwise only join the private FIFO queue. -/
def dispOrdered (s : DispState) (t : Nat) : DispState :=
  if s.running.isEmpty then
    { s with
        running := [t]
        started := s.started ++ [t]
        submitted := s.submitted ++ [t] }
  else
    { s with queue := s.queue ++ [t], submitted := s.submitted ++ [t] }

/-- Modelled from the spec: completion of the in-flight task — the next
queued task (if any) is dequeued and run. -/
def dispComplete (s : DispState) : DispState :=
  match s.queue with
  | [] => { s with running := [] }
  | u :: rest =>
    { s with
        running := [u]
        queue := rest
        started := s.started ++ [u] }

/-- An observable event of one dispatcher instance. -/
inductive DispEvent where
  | submit (t : Nat)
  | complete
  deriving DecidableEq, Repr

/-- One step of a dispatcher instance. -/
def dispStep (s : DispState) : DispEvent → DispState
  | .submit t => dispOrdered s t
  | .complete => dispComplete s

/-- A run of one dispatcher instance from the fresh state. -/
def dispRun (evs : List DispEvent) : DispState :=
  evs.foldl dispStep dispInit

/-- The serialization invariant of one dispatcher instance: started
tasks followed by queued tasks is exactly the submission order, at most
one task is in flight, and the queue is empty whenever nothing runs. -/
def DispInv (s : DispState) : Prop :=
  s.submitted = s.started ++ s.queue ∧ s.running.length ≤ 1 ∧
    (s.running = [] → s.queue = [])

theorem dispInv_init : DispInv dispInit := by
  refine ⟨rfl, by simp [dispInit], fun _ => rfl⟩

theorem dispInv_step (s : DispState) (e : DispEvent) (h : DispInv s) :
    DispInv (dispStep s e) := by
  obtain ⟨h1, h2, h3⟩ := h
  cases e with
  | submit t =>
    simp only [dispStep, dispOrdered]
    split
    · rename_i hrun
      have hq : s.queue = [] := h3 (by simpa [List.isEmpty_iff] using hrun)
      refine ⟨by simp [h1, hq], by simp, by simp [hq]⟩
    · rename_i hrun
      exact ⟨by simp [h1], h2, by simpa [List.isEmpty_iff] using hrun⟩
  | complete =>
    simp only [dispStep, dispComplete]
    cases hq : s.queue with
    | nil => exact ⟨by simpa [hq] using h1, by simp, fun _ => rfl⟩
    | cons u rest =>
      refine ⟨?_, by simp, by simp⟩
      simp [h1, hq]

theorem dispInv_run (evs : List DispEvent) : DispInv (dispRun evs) := by
  have key : ∀ (l : List DispEvent) (s : DispState), DispInv s →
      DispInv (l.foldl dispStep s) := by
    intro l
    induction l with
    | nil => exact fun s hs => hs
    | cons e rest ih =>
      intro s hs
      exact ih (dispStep s e) (dispInv_step s e hs)
  exact key evs dispInit dispInv_init

/-! Multiple dispatcher instances sharing the pool: a pool trace tags
each event with the instance it belongs to, and every instance keeps its
own private state. -/

/-- One step of a shared-pool trace: only the tagged instance moves. -/
def poolStep (f : Nat → DispState) (e : Nat × DispEvent) :
    Nat → DispState :=
  fun i => if i = e.1 then dispStep (f e.1) e.2 else f i

/-- A shared-pool run: all instances start fresh and the interleaved
trace drives each instance private state. -/
def poolRun (evs : List (Nat × DispEvent)) : Nat → DispState :=
  evs.foldl poolStep (fun _ => dispInit)

theorem poolRun_proj (evs : List (Nat × DispEvent)) (i : Nat) :
    poolRun evs i =
      dispRun ((evs.filter (fun e => e.1 == i)).map (fun e => e.2)) := by
  have key : ∀ (l : List (Nat × DispEvent)) (f : Nat → DispState),
      l.foldl poolStep f i =
        ((l.filter (fun e => e.1 == i)).map (fun e => e.2)).foldl
          dispStep (f i) := by
    intro l
    induction l with
    | nil => intro f; rfl
    | cons e rest ih =>
      intro f
      rw [List.foldl_cons, ih (poolStep f e)]
      by_cases hi : e.1 = i
      · have : (e.1 == i) = true := by simpa using hi
        simp [List.filter_cons, this, poolStep, hi]
      · have : (e.1 == i) = false := by simpa using hi
        have hne : ¬ i = e.1 := fun hc => hi hc.symm
        simp [List.filter_cons, this, poolStep, hne]
  exact key evs (fun _ => dispInit)

/-- Claim C1: in any interleaved trace of any number of dispatcher
instances sharing the pool, each instance ordered tasks begin
execution in exactly their submission order (the started list followed
by the still-queued list is the submission list), and at most one
ordered task of the instance is in flight at any moment. -/
theorem claim_c1_ordered_serialization (evs : List (Nat × DispEvent))
    (i : Nat) :
    (poolRun evs i).submitted =
        (poolRun evs i).started ++ (poolRun evs i).queue ∧
      (poolRun evs i).running.length ≤ 1 := by
  rw [poolRun_proj]
  have h := dispInv_run ((evs.filter (fun e => e.1 == i)).map
    (fun e => e.2))
  exact ⟨h.1, h.2.1⟩

/-! ## The channel collaborator

The channel implementation is not under src/ (protocol_base only holds a
`channel::ptr` and forwards to it).  Its state is modelled from the
spec data model: peer authority, immutable nonce, negotiated version,
a monotonic stop flag, and a one-shot stop-notification list.
Handlers are identified by numbers; `firedStop` records every
stop-notification delivery that has happened. -/

/-- State of one channel. -/
structure ChannelState where
  authority : Nat
  nonce : Nat
  version : Nat
  stopFlag : Bool
  stopCode : Option Nat
  stopHandlers : List Nat
  firedStop : List Nat
  deriving DecidableEq, Repr

/-- Modelled from the spec: channel `stop(ec)` — a no-op when already
stopped; otherwise the monotonic stop flag is set, the code recorded,
and every registered stop-notification handler fires once, emptying the
one-shot list. -/
def channelStop (ec : Nat) (c : ChannelState) : ChannelState :=
  if c.stopFlag then c
  else
    { c with
        stopFlag := true
        stopCode := some ec
        stopHandlers := []
        firedStop := c.firedStop ++ c.stopHandlers }

/-- Modelled from the spec: channel `set_version(v)` (single-writer
field update). -/
def channelSetVersion (v : Nat) (c : ChannelState) : ChannelState :=
  { c with version := v }

/-- Modelled from the spec: `subscribe_stop(handler)` registers a
one-shot stop notification. -/
def channelSubscribeStop (h : Nat) (c : ChannelState) : ChannelState :=
  { c with stopHandlers := c.stopHandlers ++ [h] }

/-- The channel operations a session may invoke. -/
inductive ChanOp where
  | stop (ec : Nat)
  | setVersion (v : Nat)
  | subscribeStop (h : Nat)
  deriving DecidableEq, Repr

/-- Apply one channel operation. -/
def chanApply (op : ChanOp) (c : ChannelState) : ChannelState :=
  match op with
  | .stop ec => channelStop ec c
  | .setVersion v => channelSetVersion v c
  | .subscribeStop h => channelSubscribeStop h c

/-- Repeated invocations of `stop(ec)`. -/
def stopTimes (ec : Nat) : Nat → ChannelState → ChannelState
  | 0, c => c
  | n + 1, c => stopTimes ec n (channelStop ec c)

theorem channelStop_stopped (ec : Nat) (c : ChannelState)
    (h : c.stopFlag = true) : channelStop ec c = c := by
  simp [channelStop, h]

theorem stopTimes_stopped (ec : Nat) (n : Nat) (c : ChannelState)
    (h : c.stopFlag = true) : stopTimes ec n c = c := by
  induction n with
  | zero => rfl
  | succ n ih => simp [stopTimes, channelStop_stopped ec c h, ih]

/-- Claim C7: channel stop is idempotent — a second `stop` (with any
code) changes nothing, `stop` on an already-stopped channel is a no-op,
the stop flag only moves from false to true and no operation reverts
it, and however many times `stop` is invoked, the registered
stop-notification handlers fire exactly once in total. -/
theorem claim_c7_stop_idempotent (c : ChannelState) (e1 e2 : Nat)
    (n : Nat) :
    channelStop e2 (channelStop e1 c) = channelStop e1 c ∧
      (c.stopFlag = true → channelStop e1 c = c) ∧
      (channelStop e1 c).stopFlag = true ∧
      (∀ op : ChanOp, c.stopFlag = true → (chanApply op c).stopFlag = true) ∧
      (c.stopFlag = false →
        (stopTimes e1 (n + 1) c).firedStop = c.firedStop ++ c.stopHandlers) := by
  refine ⟨?_, channelStop_stopped e1 c, ?_, ?_, ?_⟩
  · by_cases h : c.stopFlag = true
    · rw [channelStop_stopped e1 c h, channelStop_stopped e2 c h]
    · have hf : c.stopFlag = false := by simpa using h
      apply channelStop_stopped
      simp [channelStop, hf]
  · by_cases h : c.stopFlag = true
    · simpa [channelStop_stopped e1 c h] using h
    · have hf : c.stopFlag = false := by simpa using h
      simp [channelStop, hf]
  · intro op h
    cases op <;> simp [chanApply, channelStop, channelSetVersion,
      channelSubscribeStop, h]
  · intro hf
    have h1 : (channelStop e1 c).stopFlag = true := by
      simp [channelStop, hf]
    rw [show stopTimes e1 (n + 1) c = stopTimes e1 n (channelStop e1 c)
      from rfl, stopTimes_stopped e1 n _ h1]
    simp [channelStop, hf]

/-- A concrete stopped channel, for the witness below. -/
def stoppedChanSample : ChannelState :=
  ⟨0, 0, 0, true, some 1, [], [4]⟩

/-- A concrete live channel with two registered stop-notification
handlers, for the witness below. -/
def liveChanSample : ChannelState :=
  ⟨0, 0, 0, false, none, [4, 5], []⟩

theorem claim_c7_stop_idempotent_witness :
    (stoppedChanSample.stopFlag = true ∧
      channelStop 2 stoppedChanSample = stoppedChanSample) ∧
    (liveChanSample.stopFlag = false ∧
      (stopTimes 2 3 liveChanSample).firedStop = [] ++ [4, 5]) := by
  constructor
  · exact ⟨rfl, (claim_c7_stop_idempotent stoppedChanSample 2 2 0).2.1 rfl⟩
  · exact ⟨rfl, (claim_c7_stop_idempotent liveChanSample 2 2 2).2.2.2.2 rfl⟩

/-! ## The protocol_base session (network/protocol_base.cpp)

The source holds four private members — `pool_` (threadpool reference),
`dispatch_` (dedicated dispatcher), `channel_` (shared channel pointer)
and `name_` (the instance name) — and forwards operations to the
channel the pointer designates.  References and pointers are modelled
as identifiers; a world maps channel identifiers to channel states. -/

/-- A store of channels, indexed by pointer identity. -/
structure World where
  channels : Nat → ChannelState

/-- The protocol_base private members (threadpool reference, dispatcher,
channel pointer, instance name), as identifiers. -/
structure protocol_base where
  pool_ : Nat
  dispatch_ : Nat
  channel_ : Nat
  name_ : String
  deriving DecidableEq, Repr

/-- Mutate the single channel a pointer designates. -/
def updateChannel (w : World) (i : Nat) (f : ChannelState → ChannelState) :
    World :=
  { channels := fun j => if j = i then f (w.channels j) else w.channels j }

/-- Source `authority()`: returns `channel_->authority()`. -/
def protocolAuthority (w : World) (p : protocol_base) : Nat :=
  (w.channels p.channel_).authority

/-- Source `name()`: returns the session own `name_` member. -/
def protocolName (p : protocol_base) : String := p.name_

/-- Source `nonce()`: returns `channel_->nonce()`. -/
def protocolNonce (w : World) (p : protocol_base) : Nat :=
  (w.channels p.channel_).nonce

/-- Source `pool()`: returns the session own `pool_` member. -/
def protocolPool (p : protocol_base) : Nat := p.pool_

/-- Source `set_version(value)`: forwards `channel_->set_version(value)`;
the session members are untouched, so the session is returned as is. -/
def protocolSetVersion (w : World) (p : protocol_base) (v : Nat) :
    World × protocol_base :=
  (updateChannel w p.channel_ (channelSetVersion v), p)

/-- Source `stop(ec)`: forwards `channel_->stop(ec)`; the session
members are untouched, so the session is returned as is. -/
def protocolStop (w : World) (p : protocol_base) (ec : Nat) :
    World × protocol_base :=
  (updateChannel w p.channel_ (channelStop ec), p)

/-- Source `stopped()`: returns `channel_->stopped()`. -/
def protocolStopped (w : World) (p : protocol_base) : Bool :=
  (w.channels p.channel_).stopFlag

/-! ## Claims C9, C10 : passthroughs and the session frame -/

/-- A concrete world whose channels are all fresh. -/
def worldZero : World := ⟨fun _ => ⟨0, 0, 0, false, none, [], []⟩⟩

/-- A session named "ping" on pool 0 over channel 0. -/
def sessionA : protocol_base := ⟨0, 0, 0, "ping"⟩

/-- A session named "pong" on pool 1 over the same channel 0. -/
def sessionB : protocol_base := ⟨1, 0, 0, "pong"⟩

/-- Counterexample to claim C9 as stated: `name()` and `pool()` do not
return a value of the channel — two sessions over the very same channel
observe different `name()` and `pool()` results, because the source
returns the session own `name_` and `pool_` members
(protocol_base.cpp lines 43-46 and 53-56), which no channel state
determines. -/
theorem claim_c9_counterexample :
    sessionA.channel_ = sessionB.channel_ ∧
      protocolName sessionA ≠ protocolName sessionB ∧
      protocolPool sessionA ≠ protocolPool sessionB := by
  refine ⟨rfl, ?_, by decide⟩
  intro h
  simp [protocolName, sessionA, sessionB] at h

/-- Claim C9 as amended: `authority()`, `nonce()`, `stopped()`,
`set_version(v)` and `stop(ec)` are thin passthroughs to the channel —
each returns exactly the channel value or forwards the mutation to
the channel, and none depends on any other session state — while
`name()` and `pool()` return the session own stored name and
thread-pool reference with no added computation. -/
theorem claim_c9_passthroughs (w : World) (p q : protocol_base)
    (hc : p.channel_ = q.channel_) (v ec : Nat) :
    (protocolAuthority w p = (w.channels p.channel_).authority ∧
      protocolNonce w p = (w.channels p.channel_).nonce ∧
      protocolStopped w p = (w.channels p.channel_).stopFlag ∧
      protocolName p = p.name_ ∧
      protocolPool p = p.pool_) ∧
    (protocolAuthority w p = protocolAuthority w q ∧
      protocolNonce w p = protocolNonce w q ∧
      protocolStopped w p = protocolStopped w q ∧
      (∀ i, (protocolSetVersion w p v).1.channels i =
        (protocolSetVersion w q v).1.channels i) ∧
      (∀ i, (protocolStop w p ec).1.channels i =
        (protocolStop w q ec).1.channels i)) := by
  refine ⟨⟨rfl, rfl, rfl, rfl, rfl⟩, ?_, ?_, ?_, ?_, ?_⟩ <;>
    simp [protocolAuthority, protocolNonce, protocolStopped,
      protocolSetVersion, protocolStop, updateChannel, hc]

theorem claim_c9_passthroughs_witness :
    protocolAuthority worldZero sessionA =
      (worldZero.channels sessionA.channel_).authority ∧
      protocolName sessionA = sessionA.name_ :=
  have h := claim_c9_passthroughs worldZero sessionA sessionA rfl 1 2
  ⟨h.1.1, h.1.2.2.2.1⟩

/-- Claim C10: `stop(ec)` and `set_version(v)` leave every member of
the session itself unchanged — the pool reference, the dispatcher, the
channel pointer and the name — and their only effect is on the one
channel the session pointer designates; every other channel is
untouched. -/
theorem claim_c10_session_frame (w : World) (p : protocol_base)
    (ec v : Nat) :
    (protocolStop w p ec).2 = p ∧
      (protocolSetVersion w p v).2 = p ∧
      (∀ i, i ≠ p.channel_ →
        (protocolStop w p ec).1.channels i = w.channels i) ∧
      (∀ i, i ≠ p.channel_ →
        (protocolSetVersion w p v).1.channels i = w.channels i) ∧
      (protocolStop w p ec).1.channels p.channel_ =
        channelStop ec (w.channels p.channel_) ∧
      (protocolSetVersion w p v).1.channels p.channel_ =
        channelSetVersion v (w.channels p.channel_) := by
  refine ⟨rfl, rfl, ?_, ?_, ?_, ?_⟩ <;>
    simp [protocolStop, protocolSetVersion, updateChannel]
  · intro i hi
    simp [hi]
  · intro i hi
    simp [hi]

theorem claim_c10_session_frame_witness :
    (protocolStop worldZero sessionA 7).2 = sessionA ∧
      (protocolStop worldZero sessionA 7).1.channels 1 =
        worldZero.channels 1 ∧
      (protocolSetVersion worldZero sessionA 9).1.channels 1 =
        worldZero.channels 1 :=
  have h := claim_c10_session_frame worldZero sessionA 7 9
  ⟨h.1, h.2.2.1 1 (by decide), h.2.2.2.1 1 (by decide)⟩

/-! ## The Connector (network/connector.hpp)

Only the connector declarations are under src/ (cancel, the connect
overloads, handle_resolve, handle_timer, handle_connect).  Its attempt
lifecycle is modelled from the spec: Idle → Resolving →
Connecting(with deadline) → {Connected | Failed | TimedOut | Canceled};
whichever of connect completion and timer firing happens first wins and
the other is suppressed; cancellation from any thread delivers a
cancellation error exactly once unless the attempt already finished.
Candidate addresses are numbers; each handler invocation is recorded as
an outcome together with whether the channel argument was non-null. -/

/-- The phase of a connector attempt. -/
inductive ConnPhase where
  | idle
  | resolving
  | connecting
  | done
  deriving DecidableEq, Repr

/-- The outcome an attempt delivers to its handler. -/
inductive Outcome where
  | success
  | resolveFailure
  | connectFailure
  | timeout
  | canceled
  deriving DecidableEq, Repr

/-- State of one connector attempt: its phase, the resolved candidate
list once known, every address a connect was attempted to, and every
handler invocation (outcome, channel-argument non-null). -/
structure ConnState where
  phase : ConnPhase
  candidates : Option (List Nat)
  attempted : List Nat
  delivered : List (Outcome × Bool)
  deriving DecidableEq, Repr

/-- A fresh connector. -/
def connInit : ConnState := ⟨.idle, none, [], []⟩

/-- The asynchronous events acting on a connector attempt, from any
thread: the connect call, resolver completion (with candidates or with
an error), connect completion or failure, deadline-timer firing, and
cancellation. -/
inductive ConnEvent where
  | start
  | resolveOk (cs : List Nat)
  | resolveFail
  | connectOk
  | connectFail
  | timerFire
  | cancel
  deriving DecidableEq, Repr

/-- Invoke the attempt handler once and finish the attempt. -/
def connDeliver (s : ConnState) (o : Outcome) (chan : Bool) : ConnState :=
  { s with
      phase := .done
      delivered := s.delivered ++ [(o, chan)] }

/-- Modelled from the spec: one transition of the attempt.  A completion
racing in after the attempt is done (a suppressed timer or a canceled
operation callback) changes nothing; `resolveOk` attempts a connect to
the first candidate only; each terminal event delivers exactly one
outcome, a null channel on every error and a channel on success. -/
def connStep (s : ConnState) : ConnEvent → ConnState
  | .start => if s.phase = .idle then { s with phase := .resolving } else s
  | .resolveOk cs =>
    if s.phase = .resolving then
      match cs with
      | [] => connDeliver s .resolveFailure false
      | c :: _ =>
        { s with
            phase := .connecting
            candidates := some cs
            attempted := s.attempted ++ [c] }
    else s
  | .resolveFail =>
    if s.phase = .resolving then connDeliver s .resolveFailure false else s
  | .connectOk =>
    if s.phase = .connecting then connDeliver s .success true else s
  | .connectFail =>
    if s.phase = .connecting then connDeliver s .connectFailure false else s
  | .timerFire =>
    if s.phase = .connecting then connDeliver s .timeout false else s
  | .cancel =>
    if s.phase = .resolving ∨ s.phase = .connecting then
      connDeliver s .canceled false
    else s

/-- A run of one connector from the fresh state. -/
def connRun (evs : List ConnEvent) : ConnState :=
  evs.foldl connStep connInit

/-- The attempt has started and not finished. -/
def connInflight (s : ConnState) : Prop :=
  s.phase = ConnPhase.resolving ∨ s.phase = ConnPhase.connecting

instance (s : ConnState) : Decidable (connInflight s) := by
  unfold connInflight; infer_instance

/-- The connector invariant: at most one handler invocation ever, the
attempt is done exactly when the handler has been invoked, nothing is
attempted before resolution, only the first resolved candidate is ever
attempted, and the channel argument is non-null exactly on success. -/
def ConnInv (s : ConnState) : Prop :=
  s.delivered.length ≤ 1 ∧
    (s.phase = ConnPhase.done ↔ s.delivered ≠ []) ∧
    ((s.phase = ConnPhase.idle ∨ s.phase = ConnPhase.resolving) →
      (s.attempted = [] ∧ s.candidates = none)) ∧
    (match s.candidates with
     | none => s.attempted = []
     | some cs => s.attempted = cs.take 1) ∧
    (∀ o ∈ s.delivered, o.1 = Outcome.success ↔ o.2 = true)

theorem connInv_init : ConnInv connInit := by
  refine ⟨by simp [connInit], by simp [connInit], by simp [connInit],
    by simp [connInit], by simp [connInit]⟩

theorem connInv_step (s : ConnState) (e : ConnEvent) (h : ConnInv s) :
    ConnInv (connStep s e) := by
  obtain ⟨h1, h2, h3, h4, h5⟩ := h
  have hempty : s.phase ≠ ConnPhase.done → s.delivered = [] := by
    intro hp
    by_contra hne
    exact hp (h2.mpr hne)
  cases e with
  | start =>
    simp only [connStep]
    split
    · rename_i hp
      have hd := hempty (by simp [hp])
      obtain ⟨ha, hc⟩ := h3 (Or.inl hp)
      refine ⟨by simp [hd], by simp [hd], fun _ => ⟨ha, hc⟩, ?_, ?_⟩
      · simp only [hc]
        exact ha
      · simp [hd]
    · exact ⟨h1, h2, h3, h4, h5⟩
  | resolveOk cs =>
    simp only [connStep]
    split
    · rename_i hp
      have hd := hempty (by simp [hp])
      obtain ⟨ha, hc⟩ := h3 (Or.inr hp)
      cases cs with
      | nil =>
        refine ⟨by simp [connDeliver, hd], by simp [connDeliver], ?_, ?_, ?_⟩
        · intro hcon
          cases hcon <;> simp_all [connDeliver]
        · simp only [connDeliver, hc]
          exact ha
        · intro o ho
          simp [connDeliver, hd] at ho
          simp [ho]
      | cons c rest =>
        refine ⟨by simpa using h1, by simp [hp, hd], ?_, ?_, ?_⟩
        · intro hcon
          cases hcon <;> simp_all
        · simp [ha]
        · simpa using h5
    · exact ⟨h1, h2, h3, h4, h5⟩
  | resolveFail =>
    simp only [connStep]
    split
    · rename_i hp
      have hd := hempty (by simp [hp])
      obtain ⟨ha, hc⟩ := h3 (Or.inr hp)
      refine ⟨by simp [connDeliver, hd], by simp [connDeliver], ?_, ?_, ?_⟩
      · intro hcon
        cases hcon <;> simp_all [connDeliver]
      · simp only [connDeliver, hc]
        exact ha
      · intro o ho
        simp [connDeliver, hd] at ho
        simp [ho]
    · exact ⟨h1, h2, h3, h4, h5⟩
  | connectOk =>
    simp only [connStep]
    split
    · rename_i hp
      have hd := hempty (by simp [hp])
      refine ⟨by simp [connDeliver, hd], by simp [connDeliver], ?_,
        by simpa [connDeliver] using h4, ?_⟩
      · intro hcon
        cases hcon <;> simp_all [connDeliver]
      · intro o ho
        simp [connDeliver, hd] at ho
        simp [ho]
    · exact ⟨h1, h2, h3, h4, h5⟩
  | connectFail =>
    simp only [connStep]
    split
    · rename_i hp
      have hd := hempty (by simp [hp])
      refine ⟨by simp [connDeliver, hd], by simp [connDeliver], ?_,
        by simpa [connDeliver] using h4, ?_⟩
      · intro hcon
        cases hcon <;> simp_all [connDeliver]
      · intro o ho
        simp [connDeliver, hd] at ho
        simp [ho]
    · exact ⟨h1, h2, h3, h4, h5⟩
  | timerFire =>
    simp only [connStep]
    split
    · rename_i hp
      have hd := hempty (by simp [hp])
      refine ⟨by simp [connDeliver, hd], by simp [connDeliver], ?_,
        by simpa [connDeliver] using h4, ?_⟩
      · intro hcon
        cases hcon <;> simp_all [connDeliver]
      · intro o ho
        simp [connDeliver, hd] at ho
        simp [ho]
    · exact ⟨h1, h2, h3, h4, h5⟩
  | cancel =>
    simp only [connStep]
    split
    · rename_i hp
      have hd : s.delivered = [] := by
        apply hempty
        intro hdone
        cases hp <;> simp_all
      refine ⟨by simp [connDeliver, hd], by simp [connDeliver], ?_,
        by simpa [connDeliver] using h4, ?_⟩
      · intro hcon
        cases hcon <;> simp_all [connDeliver]
      · intro o ho
        simp [connDeliver, hd] at ho
        simp [ho]
    · exact ⟨h1, h2, h3, h4, h5⟩

theorem connInv_run (evs : List ConnEvent) : ConnInv (connRun evs) := by
  have key : ∀ (l : List ConnEvent) (s : ConnState), ConnInv s →
      ConnInv (l.foldl connStep s) := by
    intro l
    induction l with
    | nil => exact fun s hs => hs
    | cons e rest ih => exact fun s hs => ih _ (connInv_step s e hs)
  exact key evs connInit connInv_init

/-- Claim C2: every connector attempt invokes its handler at most once
over any interleaving of completions, failures, timer firings and
cancellations; a delivered cancellation excludes a delivered success;
cancelling an attempt that started and has not completed delivers
exactly one cancellation error; and cancel after the attempt finished
changes nothing — no second delivery, no silent drop. -/
theorem claim_c2_exactly_once (evs : List ConnEvent) :
    (connRun evs).delivered.length ≤ 1 ∧
      (Outcome.canceled ∈ ((connRun evs).delivered.map Prod.fst) →
        Outcome.success ∉ ((connRun evs).delivered.map Prod.fst)) ∧
      (connInflight (connRun evs) →
        (connStep (connRun evs) ConnEvent.cancel).delivered =
          [(Outcome.canceled, false)]) ∧
      ((connRun evs).phase = ConnPhase.done →
        connStep (connRun evs) ConnEvent.cancel = connRun evs) := by
  obtain ⟨h1, h2, h3, h4, h5⟩ := connInv_run evs
  refine ⟨h1, ?_, ?_, ?_⟩
  · intro hc hs
    cases hdel : (connRun evs).delivered with
    | nil => simp [hdel] at hc
    | cons x rest =>
      have hrest : rest = [] := by
        rw [hdel] at h1
        simpa using h1
      subst hrest
      rw [hdel] at hc hs
      simp at hc hs
      exact absurd (hc.trans hs.symm) (by decide)
  · intro hinf
    have hd : (connRun evs).delivered = [] := by
      by_contra hne
      have hdone := h2.mpr hne
      rcases hinf with hp | hp <;> rw [hdone] at hp <;> exact absurd hp (by decide)
    simp only [connStep]
    rw [if_pos (show (connRun evs).phase = ConnPhase.resolving ∨
      (connRun evs).phase = ConnPhase.connecting from hinf)]
    simp [connDeliver, hd]
  · intro hdone
    simp only [connStep]
    rw [if_neg]
    intro hor
    rcases hor with hp | hp <;> rw [hdone] at hp <;> exact absurd hp (by decide)

theorem claim_c2_exactly_once_witness :
    (connStep (connRun [ConnEvent.start, ConnEvent.resolveOk [5]])
        ConnEvent.cancel).delivered = [(Outcome.canceled, false)] ∧
      connStep (connRun [ConnEvent.start, ConnEvent.resolveOk [5],
          ConnEvent.cancel]) ConnEvent.cancel =
        connRun [ConnEvent.start, ConnEvent.resolveOk [5],
          ConnEvent.cancel] ∧
      Outcome.success ∉
        ((connRun [ConnEvent.start, ConnEvent.resolveOk [5],
          ConnEvent.cancel]).delivered.map Prod.fst) :=
  ⟨(claim_c2_exactly_once [ConnEvent.start,
      ConnEvent.resolveOk [5]]).2.2.1 (by decide),
    (claim_c2_exactly_once [ConnEvent.start, ConnEvent.resolveOk [5],
      ConnEvent.cancel]).2.2.2 (by decide),
    (claim_c2_exactly_once [ConnEvent.start, ConnEvent.resolveOk [5],
      ConnEvent.cancel]).2.1 (by decide)⟩

/-- Claim C3: whenever resolution yields an ordered candidate list, the
connector attempts a connection only to the first candidate (the
attempted list is the one-element first part of the candidate list, and
empty before resolution), and every handler invocation carrying an
error — resolver failure, connect failure or timeout — carries a null
channel; no later resolved candidate is ever attempted. -/
theorem claim_c3_first_candidate_only (evs : List ConnEvent) :
    (∀ cs, (connRun evs).candidates = some cs →
      (connRun evs).attempted = cs.take 1) ∧
      ((connRun evs).candidates = none → (connRun evs).attempted = []) ∧
      (∀ o ∈ (connRun evs).delivered, o.1 ≠ Outcome.success →
        o.2 = false) := by
  obtain ⟨h1, h2, h3, h4, h5⟩ := connInv_run evs
  refine ⟨?_, ?_, ?_⟩
  · intro cs hcs
    rw [hcs] at h4
    simpa using h4
  · intro hnone
    rw [hnone] at h4
    simpa using h4
  · intro o ho hne
    have h6 := h5 o ho
    cases hb : o.2 with
    | false => rfl
    | true => exact absurd (h6.mpr hb) hne

theorem claim_c3_first_candidate_only_witness :
    (connRun [ConnEvent.start, ConnEvent.resolveOk [5, 6],
        ConnEvent.timerFire]).attempted = [5, 6].take 1 ∧
      ((Outcome.timeout, false) : Outcome × Bool).2 = false :=
  ⟨(claim_c3_first_candidate_only [ConnEvent.start,
      ConnEvent.resolveOk [5, 6], ConnEvent.timerFire]).1 [5, 6]
        (by decide),
    (claim_c3_first_candidate_only [ConnEvent.start,
      ConnEvent.resolveOk [5, 6], ConnEvent.timerFire]).2.2
        (Outcome.timeout, false) (by decide) (by decide)⟩

/-! ## The Acceptor

Only the acceptor declarations are under src/ (cancel, listen, accept,
handle_accept).  Its accept-arming discipline is modelled from the spec:
`accept(handler)` arms exactly one pending inbound accept; a connecting
peer is wrapped into a channel handed to the armed handler with no
automatic re-arming; `cancel()` delivers a cancellation error to the
pending handler exactly once; an `accept()` issued after cancellation
fails fast with an error instead of waiting.  Handlers and channels are
identified by numbers; `accepted` lists the handlers that received a
channel in order, `erred` the handlers that received an error. -/

/-- State of one acceptor. -/
structure AccState where
  canceled : Bool
  pendingAccept : Option Nat
  accepted : List Nat
  erred : List Nat
  channels : List Nat
  nextChan : Nat
  deriving DecidableEq, Repr

/-- Modelled from the spec: `accept(handler)` — fails fast with an
error delivery when the acceptor is canceled, otherwise arms the one
pending accept slot (the spec data model holds at most one pending
accept request, so an armed acceptor ignores a second call). -/
def accAccept (s : AccState) (h : Nat) : AccState :=
  if s.canceled then { s with erred := s.erred ++ [h] }
  else if s.pendingAccept.isSome then s
  else { s with pendingAccept := some h }

/-- Modelled from the spec: an inbound peer connecting — with an accept
pending, the socket is wrapped into a fresh channel handed to the armed
handler and the slot empties with no automatic re-arming; with no
accept pending, this subsystem does not accept the connection. -/
def accPeerConnect (s : AccState) : AccState :=
  match s.pendingAccept with
  | some h =>
    { s with
        pendingAccept := none
        accepted := s.accepted ++ [h]
        channels := s.channels ++ [s.nextChan]
        nextChan := s.nextChan + 1 }
  | none => s

/-- Modelled from the spec: `cancel()` aborts the listener and delivers
a cancellation error to the pending handler exactly once. -/
def accCancel (s : AccState) : AccState :=
  match s.pendingAccept with
  | some h =>
    { s with
        canceled := true
        pendingAccept := none
        erred := s.erred ++ [h] }
  | none => { s with canceled := true }

/-- Repeated inbound peer connections. -/
def accPeers : Nat → AccState → AccState
  | 0, s => s
  | n + 1, s => accPeers n (accPeerConnect s)

theorem accPeers_unarmed (n : Nat) (s : AccState)
    (h : s.pendingAccept = none) : accPeers n s = s := by
  induction n with
  | zero => rfl
  | succ n ih => simp [accPeers, accPeerConnect, h, ih]

/-- Claim C8: an `accept(handler)` call on a live unarmed acceptor arms
exactly one pending accept and nothing else; with no accept pending an
inbound peer produces nothing (no second connection is accepted until
`accept()` is called again); an `accept()` issued after `cancel()`
fails fast with an immediate error delivery instead of arming; and once
one accept is armed, any positive number of inbound peers produces
exactly one channel, delivered to that one handler, leaving the slot
empty. -/
theorem claim_c8_accept_discipline (s : AccState) (h k : Nat) :
    (s.canceled = false → s.pendingAccept = none →
      accAccept s h = { s with pendingAccept := some h }) ∧
      (s.pendingAccept = none → accPeerConnect s = s) ∧
      (s.canceled = true → accAccept s h = { s with erred := s.erred ++ [h] }) ∧
      (s.pendingAccept = some h →
        (accPeers (k + 1) s).channels = s.channels ++ [s.nextChan] ∧
          (accPeers (k + 1) s).accepted = s.accepted ++ [h] ∧
          (accPeers (k + 1) s).pendingAccept = none) := by
  refine ⟨?_, ?_, ?_, ?_⟩
  · intro hc hp
    simp [accAccept, hc, hp]
  · intro hp
    simp [accPeerConnect, hp]
  · intro hc
    simp [accAccept, hc]
  · intro hp
    have h1 : accPeers (k + 1) s = accPeerConnect s := by
      rw [show accPeers (k + 1) s = accPeers k (accPeerConnect s) from rfl]
      apply accPeers_unarmed
      simp [accPeerConnect, hp]
    rw [h1]
    simp [accPeerConnect, hp]

/-- A concrete live, unarmed acceptor for the witness below. -/
def accSample : AccState := ⟨false, none, [], [], [], 0⟩

/-- The sample acceptor armed with handler 3. -/
def accArmedSample : AccState := ⟨false, some 3, [], [], [], 0⟩

/-- The sample acceptor after cancellation. -/
def accCanceledSample : AccState := ⟨true, none, [], [], [], 0⟩

theorem claim_c8_accept_discipline_witness :
    accAccept accSample 3 = { accSample with pendingAccept := some 3 } ∧
      accPeerConnect accSample = accSample ∧
      accAccept accCanceledSample 3 =
        { accCanceledSample with erred := accCanceledSample.erred ++ [3] } ∧
      (accPeers 2 accArmedSample).channels =
        accArmedSample.channels ++ [accArmedSample.nextChan] :=
  ⟨(claim_c8_accept_discipline accSample 3 0).1 rfl rfl,
    (claim_c8_accept_discipline accSample 3 0).2.1 rfl,
    (claim_c8_accept_discipline accCanceledSample 3 0).2.2.1 rfl,
    ((claim_c8_accept_discipline accArmedSample 3 1).2.2.2 rfl).1⟩

end LibbitcoinSpec
